import Mathlib

/-!
# fzf-filterd: the Content-Length framing layer and the filter service

A shallow embedding of `main.go`.

* Byte slices are lists of byte values, Go strings that travel through the
  filter are Lean strings, Go `int` is `Int` (64 bits where a range check
  exists in the code path, namely in `fmt.Sscanf`).
* The peer of the connection is a list of chunks: each underlying `Read`
  delivers a piece of the first pending chunk, and once the chunks are used
  up every `Read` returns the connection's final error.
* Library code (`bufio`, `bytes`, `fmt`, `strings`) is modelled next to the
  code of the repository that calls it, under the library's own names.
* Heap exhaustion is not modelled: `append` always succeeds, and `make` fails
  only on the runtime's check of the length, which is negative or above
  `maxAlloc`.
* Loops whose termination depends on the peer run on a budget computed from
  the state of the connection; running out of budget is a result of its own
  (`none`, `Run.fuelOut`) and the theorems show it does not happen.
-/

namespace FzfFilterd

/-! ## Bytes, errors, panics -/

/-- A byte of a Go byte slice, as its numeric value. -/
abbrev Byte := Nat

/-- The bytes of an ASCII string literal of the source. -/
def ascii (s : String) : List Byte := s.toList.map Char.toNat

/-- Go `error` values the callers of the read and write paths can see. -/
inductive Err where
  | EOF
  | ErrUnexpectedEOF
  | ErrNoProgress
  | transport (code : Nat)
deriving DecidableEq

/-- Run-time panics the code under study can raise. -/
inductive Panic where
  | sliceBounds
  | makeSliceLen
  | nilDeref
deriving DecidableEq

/-- Outcome of a call that may panic or run out of loop budget. -/
inductive Run (α : Type) where
  | done (a : α)
  | panic (p : Panic)
  | fuelOut
deriving DecidableEq

/-! ## The underlying `net.Conn` -/

/-- State of the underlying connection. `incoming` holds the chunks the peer
delivers, `final` the error returned after them, `writes` the argument of
every `Write` call so far, `wroom` how many more bytes the peer takes before
writes fail (`none`: no limit) together with the error of a failed write. -/
structure Conn where
  incoming : List (List Byte)
  final : Err
  writes : List (List Byte)
  wroom : Option (Nat × Err)
deriving DecidableEq

/-- Underlying `Read` into a slice of length `max`: at most `max` bytes of the
first pending chunk, or the final error when no chunk is left. -/
def Conn.Read (c : Conn) (max : Nat) : List Byte × Option Err × Conn :=
  match c.incoming with
  | [] => ([], some c.final, c)
  | chunk :: rest =>
    (chunk.take max, none,
      { c with incoming := if (chunk.drop max).isEmpty then rest else chunk.drop max :: rest })

/-- Underlying `Write`: records the call; returns the number of bytes taken and
an error when the peer took fewer than all. -/
def Conn.Write (c : Conn) (p : List Byte) : Nat × Option Err × Conn :=
  match c.wroom with
  | none => (p.length, none, { c with writes := c.writes ++ [p] })
  | some (k, e) =>
    if p.length ≤ k then
      (p.length, none, { c with writes := c.writes ++ [p], wroom := some (k - p.length, e) })
    else
      (k, some e, { c with writes := c.writes ++ [p], wroom := some (0, e) })

/-! ## `fmt`: decimal output -/

namespace fmt

/-- ASCII digit of a value below ten. -/
def digitByte (d : Nat) : Byte := 48 + d

/-- Decimal digits of `n`, least significant first. -/
def digitsRev : Nat → Nat → List Byte
  | 0, _ => []
  | fuel + 1, n => if n < 10 then [digitByte n] else digitByte (n % 10) :: digitsRev fuel (n / 10)

/-- Decimal text of a natural number. -/
def formatNat (n : Nat) : List Byte := (digitsRev (n + 1) n).reverse

/-- The text `%v` prints for a Go `int`. -/
def formatInt (i : Int) : List Byte :=
  if i < 0 then 45 :: formatNat i.natAbs else formatNat i.natAbs

end fmt

/-! ## `wrappedConn` and its write path -/

/-- The wrapper around a connection: the connection and the unread part of
the pending-read buffer `readbuf`. -/
structure wrappedConn where
  c : Conn
  readbuf : List Byte
deriving DecidableEq

/-- The literal spliced in for the payload's first byte. -/
def jsonrpcHead : List Byte := ascii "\x7b\"jsonrpc\":\"2.0\","

/-- The body `Write` builds: `append(prefix, b[1:]...)`. -/
def spliced (b : List Byte) : List Byte := jsonrpcHead ++ b.drop 1

/-- The frame `Write` builds: header, blank line, body. -/
def frame (b : List Byte) : List Byte :=
  (ascii "Content-Length: " ++ fmt.formatInt (spliced b).length ++ ascii "\r\n\r\n") ++ spliced b

/-- Method `wrappedConn.Write`. `b[1:]` panics on an empty payload. -/
def wrappedConn.Write (c : wrappedConn) (b : List Byte) :
    Run (Nat × Option Err × wrappedConn) :=
  if b.length < 1 then .panic Panic.sliceBounds
  else
    let body := jsonrpcHead ++ b.drop 1
    let header := ascii "Content-Length: " ++ fmt.formatInt body.length ++ ascii "\r\n\r\n"
    match c.c.Write (header ++ body) with
    | (n, err, conn) => .done (n, err, { c with c := conn })

/-! ## `bufio.Reader` -/

namespace bufio

/-- Size of the buffer `bufio.NewReader` allocates. -/
def defaultBufSize : Nat := 4096

/-- Number of empty reads `fill` tolerates. -/
def maxConsecutiveEmptyReads : Nat := 100

/-- A `bufio.Reader`: the connection it reads from, the buffered bytes not
yet handed out (`b.buf[b.r:b.w]`) and the pending error `b.err`. -/
structure Reader where
  rd : Conn
  buf : List Byte
  err : Option Err
deriving DecidableEq

/-- Constructor `bufio.NewReader`. -/
def NewReader (rd : Conn) : Reader := { rd := rd, buf := [], err := none }

/-- Loop of `fill`: read into the free part of the buffer until a read
delivers bytes or an error; `io.ErrNoProgress` after too many empty reads. -/
def fillLoop : Nat → Reader → Reader
  | 0, b => { b with err := some Err.ErrNoProgress }
  | i + 1, b =>
    match b.rd.Read (defaultBufSize - b.buf.length) with
    | (data, e, rd) =>
      match e with
      | some e => { rd := rd, buf := b.buf ++ data, err := some e }
      | none =>
        if data.length > 0 then { rd := rd, buf := b.buf ++ data, err := b.err }
        else fillLoop i { rd := rd, buf := b.buf ++ data, err := b.err }

/-- Method `fill`; its callers make sure the buffer is not full. -/
def Reader.fill (b : Reader) : Reader := fillLoop maxConsecutiveEmptyReads b

/-- Split at the first occurrence of `delim`: the bytes up to and including it,
and the bytes after it. -/
def splitDelim (delim : Byte) : List Byte → Option (List Byte × List Byte)
  | [] => none
  | x :: xs =>
    if x = delim then some ([x], xs)
    else
      match splitDelim delim xs with
      | none => none
      | some (l, r) => some (x :: l, r)

/-- Errors of `ReadSlice`: `bufio.ErrBufferFull`, which only `bufio` itself
produces, or an error that came from the connection or from `fill`. -/
inductive SliceErr where
  | ErrBufferFull
  | other (e : Err)
deriving DecidableEq

/-- Loop budget for a reader: every pass of the loops below uses up a
buffered byte, a pending byte or a pending chunk, or ends the loop. -/
def Reader.budget (b : Reader) : Nat :=
  b.buf.length + b.rd.incoming.flatten.length + b.rd.incoming.length + 2

/-- Loop of `ReadSlice`: search the buffer, else report the pending error,
else report a full buffer, else fill and search again. -/
def readSliceLoop (delim : Byte) :
    Nat → Reader → Option (List Byte × Option SliceErr × Reader)
  | 0, _ => none
  | fuel + 1, b =>
    match splitDelim delim b.buf with
    | some (line, rest) => some (line, none, { b with buf := rest })
    | none =>
      match b.err with
      | some e => some (b.buf, some (SliceErr.other e), { b with buf := [], err := none })
      | none =>
        if b.buf.length ≥ defaultBufSize then
          some (b.buf, some SliceErr.ErrBufferFull, { b with buf := [] })
        else readSliceLoop delim fuel b.fill

/-- Method `ReadSlice`. -/
def Reader.ReadSlice (b : Reader) (delim : Byte) :
    Option (List Byte × Option SliceErr × Reader) :=
  readSliceLoop delim b.budget b

/-- Loop of `collectFragments`: gather full buffers until `ReadSlice` returns
the final fragment or an error other than `ErrBufferFull`. -/
def collectFragmentsLoop (delim : Byte) :
    Nat → List Byte → Reader → Option (List Byte × Option Err × Reader)
  | 0, _, _ => none
  | fuel + 1, full, b =>
    match b.ReadSlice delim with
    | none => none
    | some (frag, none, b1) => some (full ++ frag, none, b1)
    | some (frag, some SliceErr.ErrBufferFull, b1) =>
      collectFragmentsLoop delim fuel (full ++ frag) b1
    | some (frag, some (SliceErr.other e), b1) => some (full ++ frag, some e, b1)

/-- Method `ReadBytes`: the bytes up to and including `delim`, or the bytes
read before an error together with that error. -/
def Reader.ReadBytes (b : Reader) (delim : Byte) : Option (List Byte × Option Err × Reader) :=
  collectFragmentsLoop delim b.budget [] b

/-- Method `Read` into a slice of length `n`. -/
def Reader.Read (b : Reader) (n : Nat) : List Byte × Option Err × Reader :=
  if n = 0 then
    if b.buf.length > 0 then ([], none, b) else ([], b.err, { b with err := none })
  else if b.buf.length = 0 then
    match b.err with
    | some e => ([], some e, { b with err := none })
    | none =>
      if n ≥ defaultBufSize then
        match b.rd.Read n with
        | (data, e, rd) => (data, e, { rd := rd, buf := [], err := none })
      else
        match b.rd.Read defaultBufSize with
        | (data, e, rd) =>
          if data.length = 0 then ([], e, { rd := rd, buf := [], err := none })
          else (data.take n, none, { rd := rd, buf := data.drop n, err := e })
  else (b.buf.take n, none, { b with buf := b.buf.drop n })

end bufio

/-! ## `bytes` and `strings` -/

namespace bytes

/-- Function `bytes.TrimRight`: drop the trailing bytes that are in `cutset`. -/
def TrimRight (s : List Byte) (cutset : List Byte) : List Byte :=
  s.rdropWhile (fun x => decide (x ∈ cutset))

/-- Method `bytes.Buffer.Read` on the unread part of a buffer, into a slice of
length `n`: bytes handed out, error, unread part left. -/
def Buffer.Read (buf : List Byte) (n : Nat) : List Byte × Option Err × List Byte :=
  if buf.length = 0 then
    if n = 0 then ([], none, []) else ([], some Err.EOF, [])
  else (buf.take n, none, buf.drop n)

end bytes

namespace strings

/-- Function `strings.HasPrefix` on the bytes of the strings. -/
def HasPrefix (s : List Byte) (pre : List Byte) : Bool := pre.isPrefixOf s

end strings

/-! ## `fmt.Sscanf` with the format `"Content-Length: %d"` -/

namespace fmt

/-- The scanner's `getRune` followed by `isSpace`: when the input starts with a
space character (in UTF-8), its code point and the input after it. -/
def readSpace (s : List Byte) : Option (Nat × List Byte) :=
  match s with
  | [] => none
  | b :: r =>
    if (9 ≤ b ∧ b ≤ 13) ∨ b = 32 then some (b, r)
    else
      match r with
      | [] => none
      | c :: r2 =>
        if b = 0xC2 ∧ (c = 0x85 ∨ c = 0xA0) then some (c, r2)
        else
          match r2 with
          | [] => none
          | d :: r3 =>
            if b = 0xE1 ∧ c = 0x9A ∧ d = 0x80 then some (0x1680, r3)
            else if b = 0xE2 ∧ c = 0x80 ∧
                ((0x80 ≤ d ∧ d ≤ 0x8A) ∨ d = 0xA8 ∨ d = 0xA9 ∨ d = 0xAF) then
              some (0x2000 + (d - 0x80), r3)
            else if b = 0xE2 ∧ c = 0x81 ∧ d = 0x9F then some (0x205F, r3)
            else if b = 0xE3 ∧ c = 0x80 ∧ d = 0x80 then some (0x3000, r3)
            else none

/-- Literal part of `advance`: every rune of the format literal has to be the
next rune of the input. -/
def matchLiteral : List Byte → List Byte → Option (List Byte)
  | [], s => some s
  | _ :: _, [] => none
  | f :: fs, x :: xs => if f = x then matchLiteral fs xs else none

/-- Space part of `advance`, the loop that skips spaces up to a newline, a
character that is no space, or the end of the input. -/
def skipSpaces : Nat → List Byte → List Byte
  | 0, s => s
  | fuel + 1, s =>
    match readSpace s with
    | none => s
    | some (r, rest) => if r = 10 then s else skipSpaces fuel rest

/-- Space part of `advance` for a space of the format that follows no newline:
the input has to be at its end or continue with a space that is no newline. -/
def advanceSpace (s : List Byte) : Option (List Byte) :=
  match s with
  | [] => some []
  | _ :: _ =>
    match readSpace s with
    | none => none
    | some (r, rest) => if r = 10 then none else some (skipSpaces rest.length rest)

/-- Method `SkipSpace` with `nlIsSpace` off: a newline is an error. -/
def SkipSpace : Nat → List Byte → Option (List Byte)
  | 0, s => some s
  | fuel + 1, s =>
    match readSpace s with
    | none => some s
    | some (r, rest) => if r = 10 then none else SkipSpace fuel rest

/-- Whether a byte is one of `0123456789`. -/
def isDigit (b : Byte) : Bool := decide (48 ≤ b ∧ b ≤ 57)

/-- Value of a run of decimal digits. -/
def parseDigits (ds : List Byte) : Nat := ds.foldl (fun acc d => acc * 10 + (d - 48)) 0

/-- Bit size of Go `int`. -/
def intBits : Nat := 64

/-- Method `scanInt` for the verb `d`: optional sign, at least one digit, and
`strconv.ParseInt` of the token with its range check. `none` is a scan
error. -/
def scanInt (s : List Byte) : Option Int :=
  match SkipSpace s.length s with
  | none => none
  | some [] => none
  | some (b :: r) =>
    let neg := decide (b = 45)
    let r1 := if b = 45 ∨ b = 43 then r else b :: r
    let ds := r1.takeWhile isDigit
    if ds.length = 0 then none
    else if neg then
      if parseDigits ds ≤ 2 ^ (intBits - 1) then some (-(parseDigits ds : Int)) else none
    else
      if parseDigits ds < 2 ^ (intBits - 1) then some (parseDigits ds : Int) else none

/-- The call `fmt.Sscanf(line, "Content-Length: %d", &contentLength)`: the value
stored in `contentLength`, or `none` when the scan fails and stores nothing.
Exact for lines of fewer than 2^30 runes, the scanner's read limit. -/
def SscanfContentLength (line : List Byte) : Option Int :=
  match matchLiteral (ascii "Content-Length:") line with
  | none => none
  | some s1 =>
    match advanceSpace s1 with
    | none => none
    | some s2 =>
      match SkipSpace s2.length s2 with
      | none => none
      | some s3 => scanInt s3

end fmt

/-! ## The read path of `wrappedConn` -/

/-- Line feed. -/
def LF : Byte := 10

/-- Method `wrappedConn.readHeader`: content length, error and the reader
afterwards. A failed `Sscanf` leaves `contentLength` at zero. -/
def readHeader (reader : bufio.Reader) : Option (Int × Option Err × bufio.Reader) :=
  match reader.ReadBytes LF with
  | none => none
  | some (_, some e, r1) => some (0, some e, r1)
  | some (line, none, r1) =>
    let line := bytes.TrimRight line (ascii "\r\n")
    let contentLength : Int :=
      if strings.HasPrefix line (ascii "Content-Length:") then
        (fmt.SscanfContentLength line).getD 0
      else 0
    match r1.ReadBytes LF with
    | none => none
    | some (_, some e, r2) => some (0, some e, r2)
    | some (_, none, r2) => some (contentLength, none, r2)

/-- The loop `for n < contentLength` of `readBuffer`; `body` is the part of the
slice filled so far, `body[:n]`. -/
def readBodyLoop (contentLength : Nat) :
    Nat → List Byte → bufio.Reader → Option (Option Err × List Byte × bufio.Reader)
  | 0, _, _ => none
  | fuel + 1, body, reader =>
    if body.length < contentLength then
      match reader.Read (contentLength - body.length) with
      | (_, some e, r) => some (some e, body, r)
      | (data, none, r) => readBodyLoop contentLength fuel (body ++ data) r
    else some (none, body, reader)

/-- The runtime's `maxAlloc` on 64-bit platforms, `1 << 48`: the largest
allocation in bytes that passes the length check of `makeslice`. -/
def maxAlloc : Nat := 2 ^ 48

/-- Builtin `make([]byte, n)`: the runtime panics (`makeslice: len out of
range`) on a negative length and on a length above `maxAlloc`. -/
def makeBytes (n : Int) : Run (List Byte) :=
  if n < 0 ∨ (maxAlloc : Int) < n then .panic Panic.makeSliceLen
  else .done (List.replicate n.toNat 0)

/-- Method `wrappedConn.readBuffer`. The `bufio.Reader` is local to the call:
only the connection it read from survives, not what it had buffered. -/
def wrappedConn.readBuffer (c : wrappedConn) : Run (Option Err × wrappedConn) :=
  let reader := bufio.NewReader c.c
  match readHeader reader with
  | none => .fuelOut
  | some (_, some e, r) => .done (some e, { c with c := r.rd })
  | some (contentLength, none, r) =>
    match makeBytes contentLength with
    | .fuelOut => .fuelOut
    | .panic p => .panic p
    | .done _ =>
      match readBodyLoop contentLength.toNat r.budget [] r with
      | none => .fuelOut
      | some (some e, _, r2) => .done (some e, { c with c := r2.rd })
      | some (none, body, r2) => .done (none, { c := r2.rd, readbuf := body })

/-- Method `wrappedConn.Read` into a slice of length `n`: bytes delivered,
error, state afterwards. The result of `readBuffer` is not looked at. -/
def wrappedConn.Read (c : wrappedConn) (n : Nat) : Run (List Byte × Option Err × wrappedConn) :=
  if c.readbuf.length = 0 then
    match c.readBuffer with
    | .fuelOut => .fuelOut
    | .panic p => .panic p
    | .done (_, c1) =>
      match bytes.Buffer.Read c1.readbuf n with
      | (data, e, rest) => .done (data, e, { c1 with readbuf := rest })
  else
    match bytes.Buffer.Read c.readbuf n with
    | (data, e, rest) => .done (data, e, { c with readbuf := rest })

/-! ## The filter service -/

namespace unicode

/-- Function `unicode.ToLower`: the letters `A` to `Z` move to `a` to `z`, the
other ASCII runes stay, and a rune beyond ASCII is mapped by the case tables
(`To(LowerCase, r)`), the parameter `table`. -/
def ToLower (table : Char → Char) (r : Char) : Char :=
  if r.toNat ≤ 0x7F then
    if 65 ≤ r.toNat ∧ r.toNat ≤ 90 then Char.ofNat (r.toNat + 32) else r
  else table r

end unicode

namespace strings

/-- Function `strings.ToLower` on a valid UTF-8 string: every rune is mapped by
`unicode.ToLower`, whose case tables are the parameter `lower`. -/
def ToLower (lower : Char → Char) (s : String) : String := String.mk (s.data.map lower)

end strings

namespace algo

/-- Type `algo.Result` of the fzf library. -/
structure Result where
  Start : Int
  End : Int
  Score : Int
deriving DecidableEq

end algo

/-- The call `algo.FuzzyMatchV2(caseSensitive, false, false, &chars, []rune(pattern),
true, nil)` as a function of `caseSensitive`, the candidate text and the
pattern. The second component is the returned pointer, `none` for `nil`. -/
abbrev Matcher := Bool → String → String → algo.Result × Option (List Int)

/-- Type `FilterResult`; `Typ` is the field `Type`. -/
structure FilterResult where
  Typ : String
  Text : String
  Score : Int
  Pos : List Int
deriving DecidableEq

/-- Type `FilterArgs`. -/
structure FilterArgs where
  Pattern : String
deriving DecidableEq

/-- Type `FilterReply`. -/
structure FilterReply where
  Results : List FilterResult
deriving DecidableEq

/-- Type `SetListArgs`. -/
structure SetListArgs where
  List : List String
deriving DecidableEq

/-- Type `SetListReply`. -/
structure SetListReply where
  Result : Int
deriving DecidableEq

/-- The package variables `list` and `commandList`. -/
structure Globals where
  list : List String
  commandList : List String
deriving DecidableEq

/-- Method `TestRPC.SetList`: new globals, reply, error. -/
def SetList (g : Globals) (args : SetListArgs) : Globals × SetListReply × Option Err :=
  ({ g with list := args.List }, { Result := 0 }, none)

/-- Method `TestRPC.SetCommandList`: new globals, reply, error. -/
def SetCommandList (g : Globals) (args : SetListArgs) : Globals × SetListReply × Option Err :=
  ({ g with commandList := args.List }, { Result := 0 }, none)

namespace cmp

/-- Function `cmp.Compare` on integers. -/
def Compare (a b : Int) : Int := if a < b then -1 else if a > b then 1 else 0

end cmp

/-- The comparison both sorts pass to `slices.SortFunc`. -/
def byScore (a b : FilterResult) : Int := cmp.Compare a.Score b.Score

/-- An implementation of `slices.SortFunc` on slices of `FilterResult`. -/
abbrev SortFunc := (FilterResult → FilterResult → Int) → List FilterResult → List FilterResult

/-- One recorded call of the matcher. -/
structure MatcherCall where
  caseSensitive : Bool
  text : String
  pattern : String
deriving DecidableEq

/-- The flag `caseSensitive` of `innerFilter`. -/
def caseSensitiveFor (lower : Char → Char) (pattern : String) : Bool :=
  if strings.ToLower lower pattern = pattern then false else true

/-- The call of the matcher at line 191: what the matcher returns for these
arguments, and the call log with the call added. The loop reaches the matcher
through this function only, so the log holds the arguments of the calls
made. -/
def callMatcher (m : Matcher) (calls : List MatcherCall) (caseSensitive : Bool)
    (text pattern : String) : (algo.Result × Option (List Int)) × List MatcherCall :=
  (m caseSensitive text pattern,
    calls ++ [{ caseSensitive := caseSensitive, text := text, pattern := pattern }])

/-- The loop `for _, text := range texts` of `innerFilter`, with the slice
`result` built so far and the matcher calls made so far. -/
def innerFilterLoop (m : Matcher) (caseSensitive : Bool) (pattern typ : String) :
    List String → List FilterResult → List MatcherCall →
      Run (List FilterResult × List MatcherCall)
  | [], result, calls => .done (result, calls)
  | text :: rest, result, calls =>
    match callMatcher m calls caseSensitive text pattern with
    | ((res, pos), calls1) =>
      if res.Score > 0 then
        match pos with
        | none => .panic Panic.nilDeref
        | some p =>
          innerFilterLoop m caseSensitive pattern typ rest
            (result ++ [{ Typ := typ, Text := text, Score := res.Score, Pos := p }]) calls1
      else innerFilterLoop m caseSensitive pattern typ rest result calls1

/-- Method `TestRPC.innerFilter`: result, error, and the matcher calls made. -/
def innerFilter (lower : Char → Char) (m : Matcher) (sortFunc : SortFunc)
    (args : FilterArgs) (texts : List String) (typ : String) :
    Run (List FilterResult × Option Err × List MatcherCall) :=
  match innerFilterLoop m (caseSensitiveFor lower args.Pattern) args.Pattern typ texts [] [] with
  | .fuelOut => .fuelOut
  | .panic p => .panic p
  | .done (result, calls) => .done (sortFunc byScore result, none, calls)

/-- Method `TestRPC.Filter`: reply and error. -/
def Filter (lower : Char → Char) (m : Matcher) (sortFunc : SortFunc)
    (g : Globals) (args : FilterArgs) : Run (FilterReply × Option Err) :=
  match innerFilter lower m sortFunc args g.list "list" with
  | .fuelOut => .fuelOut
  | .panic p => .panic p
  | .done (_, some err, _) => .done ({ Results := [] }, some err)
  | .done (result1, none, _) =>
    match innerFilter lower m sortFunc args g.commandList "command" with
    | .fuelOut => .fuelOut
    | .panic p => .panic p
    | .done (_, some err, _) => .done ({ Results := [] }, some err)
    | .done (result2, none, _) =>
      .done ({ Results := sortFunc byScore (([] ++ result1) ++ result2) }, none)

/-- The contract of `slices.SortFunc` for the comparison by score: the slice
afterwards is a rearrangement of the slice before, in ascending order. -/
def SortsByScore (sortFunc : SortFunc) : Prop :=
  ∀ l : List FilterResult,
    (sortFunc byScore l).Perm l ∧ (sortFunc byScore l).Pairwise (fun a b => byScore a b ≤ 0)

/-- The entry the spec asks for a candidate: present when the score is positive. -/
def entryFor (m : Matcher) (caseSensitive : Bool) (pattern typ text : String) :
    Option FilterResult :=
  if (m caseSensitive text pattern).1.Score > 0 then
    some { Typ := typ, Text := text, Score := (m caseSensitive text pattern).1.Score,
           Pos := ((m caseSensitive text pattern).2).getD [] }
  else none

/-- The entries the spec asks of `Filter`, list entries first. -/
def expectedEntries (lower : Char → Char) (m : Matcher) (g : Globals) (pattern : String) :
    List FilterResult :=
  g.list.filterMap (entryFor m (caseSensitiveFor lower pattern) pattern "list") ++
    g.commandList.filterMap (entryFor m (caseSensitiveFor lower pattern) pattern "command")

open bufio fmt

/-! ## Vocabulary of the statements -/

/-- The decimal numeral of `n`, most significant digit first. -/
def decimal (n : Nat) : List Byte := (Nat.digits 10 n).reverse.map fmt.digitByte

/-- The underlying connection takes `n` more bytes in full. -/
def Conn.hasRoom (c : Conn) (n : Nat) : Prop :=
  match c.wroom with
  | none => True
  | some (k, _) => n ≤ k

/-- Every pending chunk holds at least one byte, as `io.Reader` asks of a
read that returns no error. -/
def NonemptyChunks (cs : List (List Byte)) : Prop := ∀ c ∈ cs, c ≠ []

/-- The bytes a reader has yet to hand out: buffered ones, then pending ones. -/
def bufio.Reader.pending (b : bufio.Reader) : List Byte := b.buf ++ b.rd.incoming.flatten

/-- The header line that declares the length `N`, without its line end. -/
def headerLine (N : Int) : List Byte := ascii "Content-Length: " ++ fmt.formatInt N

/-- The three ways a pass of `ReadSlice` or `ReadBytes` over a reader `b` can end:
a line up to the delimiter, a full buffer without delimiter, or everything the
peer sent, without delimiter, together with the final error. -/
def SliceOutcome (d : Nat) (b : Reader) (frag : List Nat) (e : Option SliceErr) (b1 : Reader) :
    Prop :=
  (e = none ∧ b1.err = none ∧ (∃ pre, frag = pre ++ [d] ∧ d ∉ pre) ∧
      b.pending = frag ++ b1.pending) ∨
  (e = some SliceErr.ErrBufferFull ∧ b1.err = none ∧ d ∉ frag ∧ frag ≠ [] ∧
      b.pending = frag ++ b1.pending) ∨
  (e = some (SliceErr.other b.rd.final) ∧ d ∉ frag ∧ b.pending = frag ∧ b1.pending = [])

/-- The content length `readHeader` takes from the first line it reads. -/
def declaredLength (line : List Byte) : Int :=
  if strings.HasPrefix (bytes.TrimRight line (ascii "\r\n")) (ascii "Content-Length:") then
    (fmt.SscanfContentLength (bytes.TrimRight line (ascii "\r\n"))).getD 0
  else 0

/-- The library's contract for the matcher called with `withPos` set: a
positive score comes with a position slice, never with a nil pointer. -/
def PositionsOnMatch (m : Matcher) : Prop :=
  ∀ (caseSensitive : Bool) (text pattern : String),
    0 < (m caseSensitive text pattern).1.Score → (m caseSensitive text pattern).2 ≠ none

/-- Inner loop of the library's `insertionSortCmpFunc`: `x` moves left past
every element it compares less than; the sorted part is kept last element
first. -/
def insertFromRight (cmp : FilterResult → FilterResult → Int) (x : FilterResult) :
    List FilterResult → List FilterResult
  | [] => [x]
  | y :: ys => if cmp x y < 0 then y :: insertFromRight cmp x ys else x :: y :: ys

/-- The library's `insertionSortCmpFunc`, the algorithm `slices.SortFunc` runs
on slices of at most twelve elements. -/
def insertionSortCmpFunc : SortFunc :=
  fun cmp l => (l.foldl (fun acc x => insertFromRight cmp x acc) []).reverse

/-- A small matcher to instantiate the statements with: a candidate matches
when it starts with the pattern, compared as it stands when `caseSensitive` is
set and after ASCII lower-casing of the candidate otherwise; it scores one
more than the difference of the lengths. -/
def sampleMatcher : Matcher :=
  fun caseSensitive text pattern =>
    if pattern.data.isPrefixOf
        (if caseSensitive then text.data else text.data.map Char.toLower) = true then
      ({ Start := 0, End := pattern.length,
         Score := (text.length : Int) - (pattern.length : Int) + 1 },
        some ((List.range pattern.length).map Int.ofNat))
    else ({ Start := -1, End := -1, Score := 0 }, none)

/-! ## Decimal output -/

theorem digitsRev_eq_digits (fuel n : Nat) (hf : n < fuel) (hn : 0 < n) :
    fmt.digitsRev fuel n = (Nat.digits 10 n).map fmt.digitByte := by
  induction fuel generalizing n with
  | zero => omega
  | succ fuel ih =>
    unfold fmt.digitsRev
    by_cases h : n < 10
    · rw [if_pos h, Nat.digits_of_lt 10 n (by omega) h]; rfl
    · rw [if_neg h, Nat.digits_def' (by norm_num) hn, ih (n / 10) (by omega) (by omega)]
      rfl

theorem formatNat_eq_decimal (n : Nat) (hn : 0 < n) : fmt.formatNat n = decimal n := by
  unfold fmt.formatNat decimal
  rw [digitsRev_eq_digits (n + 1) n (by omega) hn, List.map_reverse]

theorem formatInt_natCast (n : Nat) : fmt.formatInt (n : Int) = fmt.formatNat n := by
  unfold fmt.formatInt
  rw [if_neg (by omega)]
  rfl

theorem jsonrpcHead_length : jsonrpcHead.length = 17 := by decide

theorem spliced_length (b : List Byte) (hb : b ≠ []) : (spliced b).length = b.length + 16 := by
  have : 0 < b.length := List.length_pos.mpr hb
  unfold spliced
  rw [List.length_append, jsonrpcHead_length, List.length_drop]
  omega

theorem frame_eq (b : List Byte) (hb : b ≠ []) :
    frame b = ascii "Content-Length: " ++ decimal (b.length + 16) ++ ascii "\r\n\r\n" ++
      (ascii "\x7b\"jsonrpc\":\"2.0\"," ++ b.drop 1) := by
  unfold frame
  rw [spliced_length b hb]
  have h := formatInt_natCast (b.length + 16)
  rw [formatNat_eq_decimal _ (by omega)] at h
  rw [h]
  rfl

/-! ## The write path -/

theorem Write_eq (c : wrappedConn) (b : List Byte) (hb : b ≠ []) :
    c.Write b = .done ((c.c.Write (frame b)).1, (c.c.Write (frame b)).2.1,
      { c := (c.c.Write (frame b)).2.2, readbuf := c.readbuf }) := by
  have : ¬ b.length < 1 := by
    have := List.length_pos.mpr hb
    omega
  unfold wrappedConn.Write
  rw [if_neg this]
  rfl

theorem Conn.Write_writes (c : Conn) (p : List Byte) : (c.Write p).2.2.writes = c.writes ++ [p] := by
  unfold Conn.Write
  cases h : c.wroom with
  | none => rfl
  | some ke =>
    obtain ⟨k, e⟩ := ke
    by_cases hk : p.length ≤ k
    · simp [hk]
    · simp [hk]

theorem Conn.Write_hasRoom (c : Conn) (p : List Byte) (h : c.hasRoom p.length) :
    (c.Write p).1 = p.length ∧ (c.Write p).2.1 = none := by
  unfold Conn.hasRoom at h
  unfold Conn.Write
  cases hw : c.wroom with
  | none => exact ⟨rfl, rfl⟩
  | some ke =>
    obtain ⟨k, e⟩ := ke
    rw [hw] at h
    have hk : p.length ≤ k := h
    simp [hk]

theorem decimal_length (n : Nat) : (decimal n).length = (Nat.digits 10 n).length := by
  simp [decimal]

theorem frame_length (b : List Byte) (hb : b ≠ []) :
    (frame b).length = 16 + (Nat.digits 10 (b.length + 16)).length + 4 + (b.length + 16) := by
  have h16 : (ascii "Content-Length: ").length = 16 := by decide
  have h4 : (ascii "\r\n\r\n").length = 4 := by decide
  have hs := spliced_length b hb
  have hsp : ascii "\x7b\"jsonrpc\":\"2.0\"," ++ b.drop 1 = spliced b := rfl
  rw [frame_eq b hb, hsp]
  simp only [List.length_append, h16, h4, hs, decimal_length]

/-- C1: for every non-empty payload `b`, `wrappedConn.Write` returns and makes
one write call on the underlying connection; the argument of that call is
`"Content-Length: "`, the decimal numeral of `len(b)+16`, `"\r\n\r\n"`, the
17-byte literal `{"jsonrpc":"2.0",` and `b[1:]`, so the declared length
`len(b)+16` is the byte length of the body after the blank line. -/
theorem Write_passes_frame (c : wrappedConn) (b : List Byte) (hb : b ≠ []) :
    ∃ n err conn, c.Write b = .done (n, err, { c := conn, readbuf := c.readbuf }) ∧
      conn.writes = c.c.writes ++
        [ascii "Content-Length: " ++ decimal (b.length + 16) ++ ascii "\r\n\r\n" ++
          (ascii "\x7b\"jsonrpc\":\"2.0\"," ++ b.drop 1)] ∧
      (ascii "\x7b\"jsonrpc\":\"2.0\",").length = 17 ∧
      (ascii "\x7b\"jsonrpc\":\"2.0\"," ++ b.drop 1).length = b.length + 16 := by
  refine ⟨_, _, _, Write_eq c b hb, ?_, by decide, spliced_length b hb⟩
  rw [Conn.Write_writes, frame_eq b hb]

theorem Write_passes_frame_witness :
    ∃ n err conn,
      wrappedConn.Write { c := { incoming := [], final := Err.EOF, writes := [], wroom := none },
                          readbuf := [] } (ascii "\x7b\"id\":1\x7d") =
        .done (n, err, { c := conn, readbuf := [] }) ∧
      conn.writes = [] ++
        [ascii "Content-Length: " ++ decimal ((ascii "\x7b\"id\":1\x7d").length + 16) ++
          ascii "\r\n\r\n" ++
          (ascii "\x7b\"jsonrpc\":\"2.0\"," ++ (ascii "\x7b\"id\":1\x7d").drop 1)] ∧
      (ascii "\x7b\"jsonrpc\":\"2.0\",").length = 17 ∧
      (ascii "\x7b\"jsonrpc\":\"2.0\"," ++ (ascii "\x7b\"id\":1\x7d").drop 1).length =
        (ascii "\x7b\"id\":1\x7d").length + 16 :=
  Write_passes_frame
    { c := { incoming := [], final := Err.EOF, writes := [], wroom := none }, readbuf := [] }
    (ascii "\x7b\"id\":1\x7d") (by decide)

/-- C9: for every non-empty payload `b` whose frame the underlying connection
takes in full, `Write` returns a nil error and the count
`16 + digits(len(b)+16) + 4 + len(b) + 16`, the length of the framed bytes, where
16 is the length of `"Content-Length: "`; the count is greater than `len(b)`. -/
theorem Write_returns_framed_count (c : wrappedConn) (b : List Byte) (hb : b ≠ [])
    (hroom : c.c.hasRoom (frame b).length) :
    ∃ c1, c.Write b =
        .done ((ascii "Content-Length: ").length + (Nat.digits 10 (b.length + 16)).length + 4 +
                b.length + 16, none, c1) ∧
      (ascii "Content-Length: ").length = 16 ∧
      b.length < (ascii "Content-Length: ").length + (Nat.digits 10 (b.length + 16)).length + 4 +
                b.length + 16 := by
  have h16 : (ascii "Content-Length: ").length = 16 := by decide
  obtain ⟨h1, h2⟩ := Conn.Write_hasRoom c.c (frame b) hroom
  refine ⟨{ c := (c.c.Write (frame b)).2.2, readbuf := c.readbuf }, ?_, h16, by omega⟩
  rw [Write_eq c b hb, h1, h2, frame_length b hb, h16]
  have : 16 + (Nat.digits 10 (b.length + 16)).length + 4 + (b.length + 16) =
      16 + (Nat.digits 10 (b.length + 16)).length + 4 + b.length + 16 := by omega
  rw [this]

theorem Write_returns_framed_count_witness :
    ∃ c1,
      wrappedConn.Write { c := { incoming := [], final := Err.EOF, writes := [],
                                 wroom := some (100, Err.transport 232) },
                          readbuf := [] } (ascii "\x7b\"id\":1\x7d") =
        .done ((ascii "Content-Length: ").length +
                (Nat.digits 10 ((ascii "\x7b\"id\":1\x7d").length + 16)).length + 4 +
                (ascii "\x7b\"id\":1\x7d").length + 16, none, c1) ∧
      (ascii "Content-Length: ").length = 16 ∧
      (ascii "\x7b\"id\":1\x7d").length <
        (ascii "Content-Length: ").length +
          (Nat.digits 10 ((ascii "\x7b\"id\":1\x7d").length + 16)).length + 4 +
          (ascii "\x7b\"id\":1\x7d").length + 16 :=
  Write_returns_framed_count
    { c := { incoming := [], final := Err.EOF, writes := [],
             wroom := some (100, Err.transport 232) }, readbuf := [] }
    (ascii "\x7b\"id\":1\x7d") (by decide)
    (by
      show (frame (ascii "\x7b\"id\":1\x7d")).length ≤ 100
      decide)

/-! ## The connection and `bufio.Reader` -/

theorem Conn.Read_nil (c : Conn) (k : Nat) (h : c.incoming = []) :
    c.Read k = ([], some c.final, c) := by
  unfold Conn.Read
  rw [h]

theorem Conn.Read_data (c : Conn) (k : Nat) (hne : c.incoming ≠ [])
    (hch : NonemptyChunks c.incoming) (hk : 0 < k) :
    ∃ data c1, c.Read k = (data, none, c1) ∧ data ≠ [] ∧ data.length ≤ k ∧
      data ++ c1.incoming.flatten = c.incoming.flatten ∧ NonemptyChunks c1.incoming ∧
      c1.final = c.final := by
  unfold Conn.Read
  cases hinc : c.incoming with
  | nil => exact absurd hinc hne
  | cons ch cs =>
    rw [hinc] at hch
    have hch0 : ch ≠ [] := hch ch (List.mem_cons_self _ _)
    have hcs : NonemptyChunks cs := fun x hx => hch x (List.mem_cons_of_mem _ hx)
    refine ⟨ch.take k, _, rfl, ?_, ?_, ?_, ?_, rfl⟩
    · intro h
      have := List.take_eq_nil_iff.mp h
      rcases this with h1 | h1
      · omega
      · exact hch0 h1
    · exact List.length_take_le k ch
    · show List.take k ch ++ (if (ch.drop k).isEmpty then cs else ch.drop k :: cs).flatten = _
      by_cases hd : (ch.drop k).isEmpty
      · rw [if_pos hd]
        have hd2 : ch.drop k = [] := List.isEmpty_iff.mp hd
        have : ch.take k = ch := by
          have := List.take_append_drop k ch
          rw [hd2, List.append_nil] at this
          exact this
        rw [this, List.flatten_cons]
      · rw [if_neg hd, List.flatten_cons, List.flatten_cons, ← List.append_assoc,
          List.take_append_drop]
    · show NonemptyChunks (if (ch.drop k).isEmpty then cs else ch.drop k :: cs)
      by_cases hd : (ch.drop k).isEmpty
      · rw [if_pos hd]; exact hcs
      · rw [if_neg hd]
        intro x hx
        rcases List.mem_cons.mp hx with h1 | h1
        · rw [h1]
          intro h2
          exact hd (List.isEmpty_iff.mpr h2)
        · exact hcs x h1

theorem pending_length (r : Reader) :
    r.pending.length = r.buf.length + r.rd.incoming.flatten.length := by
  unfold Reader.pending
  rw [List.length_append]

theorem fill_end (b : Reader) (hnil : b.rd.incoming = []) :
    b.fill = { rd := b.rd, buf := b.buf, err := some b.rd.final } := by
  unfold Reader.fill maxConsecutiveEmptyReads fillLoop
  rw [Conn.Read_nil b.rd _ hnil]
  simp

theorem fill_progress (b : Reader) (hne : b.rd.incoming ≠ [])
    (hch : NonemptyChunks b.rd.incoming) (hroom : b.buf.length < defaultBufSize) :
    b.fill.err = b.err ∧ NonemptyChunks b.fill.rd.incoming ∧ b.fill.pending = b.pending ∧
      b.buf.length < b.fill.buf.length ∧ b.fill.rd.final = b.rd.final := by
  obtain ⟨data, c1, hread, hd, _, hflat, hch1, hfin⟩ :=
    Conn.Read_data b.rd (defaultBufSize - b.buf.length) hne hch (by omega)
  have hlen : 0 < data.length := List.length_pos.mpr hd
  have hfill : b.fill = { rd := c1, buf := b.buf ++ data, err := b.err } := by
    unfold Reader.fill maxConsecutiveEmptyReads fillLoop
    rw [hread]
    simp only [gt_iff_lt, hlen, if_true]
  rw [hfill]
  refine ⟨rfl, hch1, ?_, ?_, hfin⟩
  · unfold Reader.pending
    simp only [List.append_assoc, hflat]
  · simp only [List.length_append]
    omega

theorem splitDelim_found (d : Nat) (pre post : List Nat) (h : d ∉ pre) :
    splitDelim d (pre ++ d :: post) = some (pre ++ [d], post) := by
  induction pre with
  | nil => simp [splitDelim]
  | cons x xs ih =>
    have hx : x ≠ d := fun e => h (e ▸ List.mem_cons_self _ _)
    have hxs : d ∉ xs := fun m => h (List.mem_cons_of_mem _ m)
    simp [splitDelim, hx, ih hxs]

theorem splitDelim_absent (d : Nat) (l : List Nat) (h : d ∉ l) : splitDelim d l = none := by
  induction l with
  | nil => rfl
  | cons x xs ih =>
    have hx : x ≠ d := fun e => h (e ▸ List.mem_cons_self _ _)
    have hxs : d ∉ xs := fun m => h (List.mem_cons_of_mem _ m)
    simp [splitDelim, hx, ih hxs]

/-- The first occurrence of a byte in a list is at one place only. -/
theorem first_occurrence_unique (d : Nat) (p1 p2 q1 q2 : List Nat)
    (h : p1 ++ d :: q1 = p2 ++ d :: q2) (h1 : d ∉ p1) (h2 : d ∉ p2) : p1 = p2 ∧ q1 = q2 := by
  induction p1 generalizing p2 with
  | nil =>
    cases p2 with
    | nil => simpa using h
    | cons y ys =>
      simp at h
      exact absurd (h.1 ▸ List.mem_cons_self _ _) h2
  | cons x xs ih =>
    cases p2 with
    | nil =>
      simp at h
      exact absurd (h.1 ▸ List.mem_cons_self _ _) h1
    | cons y ys =>
      simp only [List.cons_append, List.cons.injEq] at h
      obtain ⟨e1, e2⟩ := ih ys h.2 (fun m => h1 (List.mem_cons_of_mem _ m))
        (fun m => h2 (List.mem_cons_of_mem _ m))
      exact ⟨by rw [h.1, e1], e2⟩

theorem readSliceLoop_spec (d : Nat) :
    ∀ (fuel : Nat) (b : Reader), b.err = none → NonemptyChunks b.rd.incoming →
      b.rd.incoming.flatten.length + 1 < fuel →
      ∃ frag e b1, readSliceLoop d fuel b = some (frag, e, b1) ∧
        NonemptyChunks b1.rd.incoming ∧ b1.rd.final = b.rd.final ∧ b1.err = none ∧
        SliceOutcome d b frag e b1 := by
  intro fuel
  induction fuel with
  | zero => intro b _ _ h; omega
  | succ fuel ih =>
    intro b herr hch hfuel
    by_cases hmem : d ∈ b.buf
    · obtain ⟨pre, r, hbuf, hpre⟩ := List.eq_append_cons_of_mem hmem
      refine ⟨pre ++ [d], none, { b with buf := r }, ?_, hch, rfl, herr, Or.inl ⟨rfl, herr, ⟨pre, rfl, hpre⟩, ?_⟩⟩
      · unfold readSliceLoop
        rw [hbuf, splitDelim_found d pre r hpre]
      · unfold Reader.pending
        rw [hbuf]
        simp
    · by_cases hfull : b.buf.length ≥ defaultBufSize
      · refine ⟨b.buf, some SliceErr.ErrBufferFull, { b with buf := [] }, ?_, hch, rfl, herr,
          Or.inr (Or.inl ⟨rfl, herr, hmem, ?_, ?_⟩)⟩
        · unfold readSliceLoop
          rw [splitDelim_absent d _ hmem, herr]
          simp only
          rw [if_pos hfull]
        · intro h
          rw [h] at hfull
          revert hfull
          decide
        · unfold Reader.pending
          simp
      · have hstep : readSliceLoop d (fuel + 1) b = readSliceLoop d fuel b.fill := by
          rw [readSliceLoop]
          rw [splitDelim_absent d _ hmem, herr]
          simp only
          rw [if_neg hfull]
        by_cases hinc : b.rd.incoming = []
        · have hf := fill_end b hinc
          obtain ⟨f2, rfl⟩ : ∃ f2, fuel = f2 + 1 := ⟨fuel - 1, by omega⟩
          refine ⟨b.buf, some (SliceErr.other b.rd.final),
            { rd := b.rd, buf := [], err := none }, ?_, hch, rfl, rfl,
            Or.inr (Or.inr ⟨rfl, hmem, ?_, ?_⟩)⟩
          · rw [hstep, hf]
            unfold readSliceLoop
            simp only
            rw [splitDelim_absent d _ hmem]
          · unfold Reader.pending
            rw [hinc]
            simp
          · unfold Reader.pending
            rw [hinc]
            rfl
        · obtain ⟨h1, h2, h3, h4, h5⟩ := fill_progress b hinc hch (by omega)
          have hmeasure : b.fill.rd.incoming.flatten.length + 1 < fuel := by
            have e1 := congrArg List.length h3
            rw [pending_length, pending_length] at e1
            omega
          obtain ⟨frag, e, b1, hb1, hb2, hb3, hb4, hb5⟩ := ih b.fill (h1.trans herr) h2 hmeasure
          refine ⟨frag, e, b1, hstep.trans hb1, hb2, hb3.trans h5, hb4, ?_⟩
          unfold SliceOutcome at hb5 ⊢
          rw [h3, h5] at hb5
          exact hb5

theorem collectFragmentsLoop_spec (d : Nat) :
    ∀ (fuel : Nat) (full : List Nat) (b : Reader), b.err = none →
      NonemptyChunks b.rd.incoming → b.pending.length < fuel →
      ∃ line e b1, collectFragmentsLoop d fuel full b = some (full ++ line, e, b1) ∧
        NonemptyChunks b1.rd.incoming ∧ b1.rd.final = b.rd.final ∧ b1.err = none ∧
        ((e = none ∧ (∃ pre, line = pre ++ [d] ∧ d ∉ pre) ∧ b.pending = line ++ b1.pending) ∨
         (e = some b.rd.final ∧ d ∉ line ∧ b.pending = line ∧ b1.pending = [])) := by
  intro fuel
  induction fuel with
  | zero => intro _ b _ _ h; omega
  | succ fuel ih =>
    intro full b herr hch hfuel
    obtain ⟨frag, e, b1, hb1, hb2, hb3, hb4, hb5⟩ :=
      readSliceLoop_spec d b.budget b herr hch (by unfold Reader.budget; omega)
    have hrs : b.ReadSlice d = some (frag, e, b1) := hb1
    unfold collectFragmentsLoop
    rw [hrs]
    rcases hb5 with ⟨he, _, hpre, hpend⟩ | ⟨he, _, hnot, hne, hpend⟩ | ⟨he, hnot, hpend, hpend1⟩
    · subst he
      exact ⟨frag, none, b1, rfl, hb2, hb3, hb4, Or.inl ⟨rfl, hpre, hpend⟩⟩
    · subst he
      have hlen : b1.pending.length < fuel := by
        have e1 := congrArg List.length hpend
        rw [List.length_append] at e1
        have := List.length_pos.mpr hne
        omega
      obtain ⟨line, e2, b2, hc1, hc2, hc3, hc4, hc5⟩ := ih (full ++ frag) b1 hb4 hb2 hlen
      refine ⟨frag ++ line, e2, b2, ?_, hc2, hc3.trans hb3, hc4, ?_⟩
      · simp only
        rw [hc1, List.append_assoc]
      · rcases hc5 with ⟨he2, ⟨pre, hl, hp⟩, hpd⟩ | ⟨he2, hn2, hpd, hpd1⟩
        · refine Or.inl ⟨he2, ⟨frag ++ pre, by rw [hl, List.append_assoc], ?_⟩, ?_⟩
          · intro hm
            rcases List.mem_append.mp hm with h1 | h1
            · exact hnot h1
            · exact hp h1
          · rw [hpend, hpd, List.append_assoc]
        · refine Or.inr ⟨by rw [he2, hb3], ?_, by rw [hpend, hpd], hpd1⟩
          intro hm
          rcases List.mem_append.mp hm with h1 | h1
          · exact hnot h1
          · exact hn2 h1
    · subst he
      exact ⟨frag, some b.rd.final, b1, rfl, hb2, hb3, hb4, Or.inr ⟨rfl, hnot, hpend, hpend1⟩⟩

theorem ReadBytes_found (d : Nat) (pre post : List Nat) (hpre : d ∉ pre)
    (b : Reader) (herr : b.err = none)
    (hch : NonemptyChunks b.rd.incoming) (hpend : b.pending = pre ++ d :: post) :
    ∃ b1, b.ReadBytes d = some (pre ++ [d], none, b1) ∧ b1.err = none ∧
      NonemptyChunks b1.rd.incoming ∧ b1.pending = post ∧ b1.rd.final = b.rd.final := by
  obtain ⟨line, e, b1, h1, h2, h3, h4, h5⟩ :=
    collectFragmentsLoop_spec d b.budget [] b herr hch
      (by rw [pending_length]; unfold Reader.budget; omega)
  rw [List.nil_append] at h1
  rcases h5 with ⟨he, ⟨p2, hl, hp2⟩, hpd⟩ | ⟨_, hnot, hpd, _⟩
  · subst he
    rw [hpend, hl, List.append_assoc] at hpd
    obtain ⟨e1, e2⟩ := first_occurrence_unique d pre p2 post b1.pending hpd hpre hp2
    refine ⟨b1, ?_, h4, h2, e2.symm, h3⟩
    unfold Reader.ReadBytes
    rw [h1, hl, e1]
  · exfalso
    apply hnot
    rw [← hpd, hpend]
    exact List.mem_append_right _ (List.mem_cons_self _ _)

theorem Read_progress (r : Reader) (k : Nat) (hk : 0 < k) (herr : r.err = none)
    (hch : NonemptyChunks r.rd.incoming) (hpend : r.pending ≠ []) :
    ∃ data r1, r.Read k = (data, none, r1) ∧ data ≠ [] ∧ data.length ≤ k ∧
      data ++ r1.pending = r.pending ∧ r1.err = none ∧ NonemptyChunks r1.rd.incoming ∧
      r1.rd.final = r.rd.final := by
  unfold Reader.Read
  rw [if_neg (by omega)]
  by_cases hbuf : r.buf.length = 0
  · have hb0 : r.buf = [] := List.length_eq_zero.mp hbuf
    have hne : r.rd.incoming ≠ [] := by
      intro h
      apply hpend
      unfold Reader.pending
      rw [hb0, h]
      rfl
    rw [if_pos hbuf, herr]
    by_cases hbig : k ≥ defaultBufSize
    · obtain ⟨data, c1, hread, hd, hle, hflat, hch1, hfin⟩ := Conn.Read_data r.rd k hne hch hk
      rw [if_pos hbig, hread]
      refine ⟨data, _, rfl, hd, hle, ?_, rfl, hch1, hfin⟩
      unfold Reader.pending
      rw [hb0]
      simpa using hflat
    · obtain ⟨data, c1, hread, hd, hle, hflat, hch1, hfin⟩ :=
        Conn.Read_data r.rd defaultBufSize hne hch (by decide)
      have hlen : data.length ≠ 0 := fun h => hd (List.length_eq_zero.mp h)
      rw [if_neg hbig, hread]
      simp only [hlen, if_false]
      refine ⟨data.take k, _, rfl, ?_, List.length_take_le k data, ?_, rfl, hch1, hfin⟩
      · intro h
        rcases List.take_eq_nil_iff.mp h with h1 | h1
        · omega
        · exact hd h1
      · unfold Reader.pending
        rw [hb0]
        simp only [List.nil_append]
        rw [← List.append_assoc, List.take_append_drop, hflat]
  · rw [if_neg hbuf]
    have hb0 : r.buf ≠ [] := fun h => hbuf (by rw [h]; rfl)
    refine ⟨r.buf.take k, _, rfl, ?_, List.length_take_le k r.buf, ?_, herr, hch, rfl⟩
    · intro h
      rcases List.take_eq_nil_iff.mp h with h1 | h1
      · omega
      · exact hb0 h1
    · unfold Reader.pending
      simp only
      rw [← List.append_assoc, List.take_append_drop]

theorem readBodyLoop_complete (N : Nat) :
    ∀ (fuel : Nat) (body : List Byte) (r : Reader), r.err = none →
      NonemptyChunks r.rd.incoming → body.length ≤ N → N ≤ body.length + r.pending.length →
      r.pending.length < fuel →
      ∃ r1, readBodyLoop N fuel body r = some (none, (body ++ r.pending).take N, r1) := by
  intro fuel
  induction fuel with
  | zero => intro _ r _ _ _ _ h; omega
  | succ fuel ih =>
    intro body r herr hch hle hge hfuel
    unfold readBodyLoop
    by_cases hlt : body.length < N
    · rw [if_pos hlt]
      have hpne : r.pending ≠ [] := by
        intro h
        rw [h] at hge
        simp at hge
        omega
      obtain ⟨data, r1, hread, hd, hdle, hpend, herr1, hch1, _⟩ :=
        Read_progress r (N - body.length) (by omega) herr hch hpne
      rw [hread]
      have hdl : 0 < data.length := List.length_pos.mpr hd
      have hl : data.length + r1.pending.length = r.pending.length := by
        rw [← hpend, List.length_append]
      obtain ⟨r2, hr2⟩ := ih (body ++ data) r1 herr1 hch1
        (by rw [List.length_append]; omega) (by rw [List.length_append]; omega) (by omega)
      refine ⟨r2, ?_⟩
      simp only
      rw [hr2, List.append_assoc, hpend]
    · rw [if_neg hlt]
      have : body.length = N := by omega
      refine ⟨r, ?_⟩
      rw [← this, List.take_left']
      rfl

theorem readSpace_none (b : Nat) (r : List Nat) (h1 : 32 < b) (h2 : b < 128) :
    readSpace (b :: r) = none := by
  unfold readSpace
  have e1 : ¬ ((9 ≤ b ∧ b ≤ 13) ∨ b = 32) := by omega
  simp only [e1, if_false]
  cases r with
  | nil => rfl
  | cons c r2 =>
    have e2 : ¬ (b = 0xC2 ∧ (c = 0x85 ∨ c = 0xA0)) := by omega
    simp only [e2, if_false]
    cases r2 with
    | nil => rfl
    | cons d r3 =>
      have e3 : ¬ (b = 0xE1 ∧ c = 0x9A ∧ d = 0x80) := by omega
      have e4 : ¬ (b = 0xE2 ∧ c = 0x80 ∧
          ((0x80 ≤ d ∧ d ≤ 0x8A) ∨ d = 0xA8 ∨ d = 0xA9 ∨ d = 0xAF)) := by omega
      have e5 : ¬ (b = 0xE2 ∧ c = 0x81 ∧ d = 0x9F) := by omega
      have e6 : ¬ (b = 0xE3 ∧ c = 0x80 ∧ d = 0x80) := by omega
      simp only [e3, e4, e5, e6, if_false]

theorem SkipSpace_none (fuel : Nat) (s : List Byte) (h : readSpace s = none) :
    SkipSpace fuel s = some s := by
  cases fuel with
  | zero => rfl
  | succ fuel => unfold SkipSpace; rw [h]

theorem skipSpaces_none (fuel : Nat) (s : List Byte) (h : readSpace s = none) :
    skipSpaces fuel s = s := by
  cases fuel with
  | zero => rfl
  | succ fuel => unfold skipSpaces; rw [h]

theorem isDigit_iff (b : Nat) : isDigit b = true ↔ 48 ≤ b ∧ b ≤ 57 := by
  unfold isDigit
  simp

theorem digitsRev_isDigit (fuel n : Nat) : ∀ x ∈ digitsRev fuel n, isDigit x = true := by
  induction fuel generalizing n with
  | zero => intro x hx; simp [digitsRev] at hx
  | succ fuel ih =>
    intro x hx
    unfold Byte at x
    unfold digitsRev at hx
    by_cases h : n < 10
    · rw [if_pos h] at hx
      rw [List.mem_singleton] at hx
      rw [hx, isDigit_iff]
      unfold digitByte
      omega
    · rw [if_neg h] at hx
      rcases List.mem_cons.mp hx with h1 | h1
      · rw [h1, isDigit_iff]
        unfold digitByte
        omega
      · exact ih _ x h1

theorem digitsRev_ne_nil (fuel n : Nat) : digitsRev (fuel + 1) n ≠ [] := by
  unfold digitsRev
  by_cases h : n < 10
  · rw [if_pos h]; simp
  · rw [if_neg h]; simp

theorem parseDigits_reverse (l : List Byte) :
    parseDigits l.reverse = l.foldr (fun d acc => acc * 10 + (d - 48)) 0 := by
  unfold parseDigits
  rw [List.foldl_reverse]

theorem digitsRev_value (fuel n : Nat) (hf : n < fuel) :
    (digitsRev fuel n).foldr (fun d acc => acc * 10 + (d - 48)) 0 = n := by
  induction fuel generalizing n with
  | zero => omega
  | succ fuel ih =>
    unfold digitsRev
    by_cases h : n < 10
    · rw [if_pos h]
      simp [digitByte]
    · rw [if_neg h]
      simp only [List.foldr_cons]
      rw [ih (n / 10) (by omega)]
      unfold digitByte
      omega

theorem formatNat_isDigit (n : Nat) : ∀ x ∈ formatNat n, isDigit x = true := by
  intro x hx
  unfold formatNat at hx
  exact digitsRev_isDigit _ _ x (List.mem_reverse.mp hx)

theorem formatNat_ne_nil (n : Nat) : formatNat n ≠ [] := by
  unfold formatNat
  intro h
  exact digitsRev_ne_nil n n (List.reverse_eq_nil_iff.mp h)

theorem parseDigits_formatNat (n : Nat) : parseDigits (formatNat n) = n := by
  unfold formatNat
  rw [parseDigits_reverse, digitsRev_value _ _ (by omega)]

theorem scanInt_digits (ds : List Nat) (hne : ds ≠ []) (hall : ∀ x ∈ ds, isDigit x = true) :
    scanInt ds =
      if parseDigits ds < 2 ^ 63 then some (parseDigits ds : Int) else none := by
  cases ds with
  | nil => exact absurd rfl hne
  | cons b r =>
    have hb := (isDigit_iff b).mp (hall b (List.mem_cons_self _ _))
    have hsp : readSpace (b :: r) = none := readSpace_none b r (by omega) (by omega)
    unfold scanInt
    rw [SkipSpace_none _ _ hsp]
    have e1 : ¬ b = 43 := by omega
    have e2 : ¬ b = 45 := by omega
    have htw : List.takeWhile isDigit (b :: r) = b :: r := List.takeWhile_eq_self_iff.mpr hall
    simp only [e1, e2, or_self, if_false, htw, decide_False, List.length_cons,
      Nat.add_one_ne_zero, Bool.false_eq_true, intBits]

theorem scanInt_minus (ds : List Nat) (hne : ds ≠ []) (hall : ∀ x ∈ ds, isDigit x = true) :
    scanInt (45 :: ds) =
      if parseDigits ds ≤ 2 ^ 63 then some (-(parseDigits ds : Int)) else none := by
  have hsp : readSpace (45 :: ds) = none := readSpace_none 45 ds (by omega) (by omega)
  unfold scanInt
  rw [SkipSpace_none _ _ hsp]
  have htw : List.takeWhile isDigit ds = ds := List.takeWhile_eq_self_iff.mpr hall
  have hlen : ds.length ≠ 0 := fun h => hne (List.length_eq_zero.mp h)
  simp only [true_or, if_true, htw, decide_True, hlen, if_false, intBits]

theorem ascii_header : ascii "Content-Length: " = ascii "Content-Length:" ++ [32] := by decide

theorem ascii_crlf : ascii "\r\n" = [13, 10] := by decide

theorem ascii_crlfcrlf : ascii "\r\n\r\n" = [13, 10, 13, 10] := by decide

theorem matchLiteral_append (lit s : List Nat) : matchLiteral lit (lit ++ s) = some s := by
  induction lit with
  | nil => cases s <;> rfl
  | cons x xs ih => simp [matchLiteral, ih]

theorem formatInt_nonneg (N : Int) (h : 0 ≤ N) : formatInt N = formatNat N.natAbs := by
  unfold formatInt
  rw [if_neg (by omega)]

theorem formatInt_neg (N : Int) (h : N < 0) : formatInt N = 45 :: formatNat N.natAbs := by
  unfold formatInt
  rw [if_pos h]

theorem scanInt_formatInt (N : Int) (hlo : -(2 ^ 63) ≤ N) (hhi : N < 2 ^ 63) :
    scanInt (formatInt N) = some N := by
  by_cases h : 0 ≤ N
  · rw [formatInt_nonneg N h, scanInt_digits _ (formatNat_ne_nil _) (formatNat_isDigit _),
      parseDigits_formatNat, if_pos (by omega)]
    congr 1
    omega
  · rw [formatInt_neg N (by omega), scanInt_minus _ (formatNat_ne_nil _) (formatNat_isDigit _),
      parseDigits_formatNat, if_pos (by omega)]
    congr 1
    omega

theorem formatInt_head (N : Int) :
    ∃ (b : Nat) (r : List Nat), formatInt N = b :: r ∧ 32 < b ∧ b < 128 := by
  by_cases h : 0 ≤ N
  · rw [formatInt_nonneg N h]
    cases hf : formatNat N.natAbs with
    | nil => exact absurd hf (formatNat_ne_nil _)
    | cons b r =>
      have := (isDigit_iff b).mp (formatNat_isDigit N.natAbs b (by rw [hf]; exact List.mem_cons_self _ _))
      exact ⟨b, r, rfl, by omega, by omega⟩
  · rw [formatInt_neg N (by omega)]
    exact ⟨45, _, rfl, by omega, by omega⟩

theorem Sscanf_headerLine (N : Int) (hlo : -(2 ^ 63) ≤ N) (hhi : N < 2 ^ 63) :
    SscanfContentLength (headerLine N) = some N := by
  obtain ⟨b, r, hbr, h1, h2⟩ := formatInt_head N
  have hsp : readSpace (formatInt N) = none := by rw [hbr]; exact readSpace_none b r h1 h2
  unfold SscanfContentLength headerLine
  rw [ascii_header, List.append_assoc, matchLiteral_append]
  simp only
  have hadv : advanceSpace ([32] ++ formatInt N) = some (formatInt N) := by
    simp [advanceSpace, readSpace, skipSpaces_none _ _ hsp]
  rw [hadv]
  simp only
  rw [SkipSpace_none _ _ hsp]
  exact scanInt_formatInt N hlo hhi

theorem formatInt_tail (N : Int) :
    ∃ (l : List Nat) (x : Nat), formatInt N = l ++ [x] ∧ 48 ≤ x ∧ x ≤ 57 := by
  have key : ∀ n : Nat, ∃ (l : List Nat) (x : Nat), formatNat n = l ++ [x] ∧ 48 ≤ x ∧ x ≤ 57 := by
    intro n
    unfold formatNat
    cases hd : digitsRev (n + 1) n with
    | nil => exact absurd hd (digitsRev_ne_nil _ _)
    | cons x t =>
      have := (isDigit_iff x).mp (digitsRev_isDigit (n + 1) n x (by rw [hd]; exact List.mem_cons_self _ _))
      exact ⟨t.reverse, x, by rw [List.reverse_cons], this.1, this.2⟩
  by_cases h : 0 ≤ N
  · rw [formatInt_nonneg N h]
    exact key _
  · rw [formatInt_neg N (by omega)]
    obtain ⟨l, x, hl, hx⟩ := key N.natAbs
    exact ⟨45 :: l, x, by rw [hl]; rfl, hx⟩

theorem TrimRight_crlf (l : List Nat) (x : Nat) (hx : x ≠ 13 ∧ x ≠ 10) :
    bytes.TrimRight ((l ++ [x]) ++ [13] ++ [10]) (ascii "\r\n") = l ++ [x] := by
  unfold bytes.TrimRight
  rw [ascii_crlf, List.rdropWhile_concat_pos _ _ _ (by simp),
    List.rdropWhile_concat_pos _ _ _ (by simp), List.rdropWhile_concat_neg _ _ _ (by simp [hx])]

theorem TrimRight_headerLine (N : Int) :
    bytes.TrimRight (headerLine N ++ [13] ++ [10]) (ascii "\r\n") = headerLine N := by
  obtain ⟨l, x, hl, hx1, hx2⟩ := formatInt_tail N
  unfold headerLine
  rw [hl, ← List.append_assoc]
  exact TrimRight_crlf _ x (by omega)

theorem HasPrefix_headerLine (N : Int) :
    strings.HasPrefix (headerLine N) (ascii "Content-Length:") = true := by
  unfold strings.HasPrefix headerLine
  rw [ascii_header, List.append_assoc, List.isPrefixOf_iff_prefix]
  exact List.prefix_append _ _

theorem LF_not_mem_headerLine (N : Int) : LF ∉ headerLine N := by
  unfold headerLine
  intro h
  rcases List.mem_append.mp h with h1 | h1
  · revert h1
    decide
  · by_cases hN : 0 ≤ N
    · rw [formatInt_nonneg N hN] at h1
      have := (isDigit_iff _).mp (formatNat_isDigit _ _ h1)
      unfold LF at this
      omega
    · rw [formatInt_neg N (by omega)] at h1
      rcases List.mem_cons.mp h1 with h2 | h2
      · exact absurd h2 (by decide)
      · have := (isDigit_iff _).mp (formatNat_isDigit _ _ h2)
        unfold LF at this
        omega

/-! ## The read path -/

theorem NewReader_pending (c : Conn) : (NewReader c).pending = c.incoming.flatten := rfl

theorem readHeader_two_lines (l m rest : List Nat) (hl : LF ∉ l) (hm : LF ∉ m)
    (r : Reader) (herr : r.err = none) (hch : NonemptyChunks r.rd.incoming)
    (hpend : r.pending = l ++ LF :: (m ++ LF :: rest)) :
    ∃ r2, readHeader r = some (declaredLength (l ++ [LF]), none, r2) ∧ r2.err = none ∧
      NonemptyChunks r2.rd.incoming ∧ r2.pending = rest ∧ r2.rd.final = r.rd.final := by
  obtain ⟨r1, hr1, herr1, hch1, hpend1, hfin1⟩ := ReadBytes_found LF l _ hl r herr hch hpend
  obtain ⟨r2, hr2, herr2, hch2, hpend2, hfin2⟩ :=
    ReadBytes_found LF m rest hm r1 herr1 hch1 hpend1
  refine ⟨r2, ?_, herr2, hch2, hpend2, hfin2.trans hfin1⟩
  unfold readHeader
  rw [hr1]
  simp only
  rw [hr2]
  rfl

theorem declaredLength_headerLine (N : Int) (hlo : -(2 ^ 63) ≤ N) (hhi : N < 2 ^ 63) :
    declaredLength ((headerLine N ++ [13]) ++ [LF]) = N := by
  unfold declaredLength
  have : headerLine N ++ [13] ++ [LF] = headerLine N ++ [13] ++ [10] := rfl
  rw [this, TrimRight_headerLine, HasPrefix_headerLine, if_pos rfl, Sscanf_headerLine N hlo hhi]
  rfl

theorem readHeader_headerLine (N : Int) (hlo : -(2 ^ 63) ≤ N) (hhi : N < 2 ^ 63)
    (r : Reader) (rest : List Byte) (herr : r.err = none) (hch : NonemptyChunks r.rd.incoming)
    (hpend : r.pending = headerLine N ++ ascii "\r\n\r\n" ++ rest) :
    ∃ r1, readHeader r = some (N, none, r1) ∧ r1.err = none ∧
      NonemptyChunks r1.rd.incoming ∧ r1.pending = rest ∧ r1.rd.final = r.rd.final := by
  have hp1 : r.pending = (headerLine N ++ [13]) ++ LF :: ([13] ++ LF :: rest) := by
    rw [hpend, ascii_crlfcrlf]
    simp [LF]
  have hnot : LF ∉ headerLine N ++ [13] := by
    intro h
    rcases List.mem_append.mp h with h1 | h1
    · exact LF_not_mem_headerLine N h1
    · revert h1
      decide
  have h := readHeader_two_lines _ [13] rest hnot (by decide) r herr hch hp1
  rw [declaredLength_headerLine N hlo hhi] at h
  exact h

theorem makeBytes_fits (N : Int) (h : 0 ≤ N) (hmax : N ≤ (maxAlloc : Int)) :
    makeBytes N = .done (List.replicate N.toNat 0) := by
  unfold makeBytes
  rw [if_neg (by omega)]

theorem makeBytes_out_of_range (N : Int) (h : N < 0 ∨ (maxAlloc : Int) < N) :
    makeBytes N = .panic Panic.makeSliceLen := by
  unfold makeBytes
  rw [if_pos h]

theorem maxAlloc_lt : (maxAlloc : Int) < 2 ^ 63 := by decide

theorem readBuffer_of_header (c : wrappedConn) (N : Int) (r : Reader) (hN : 0 ≤ N)
    (hmax : N ≤ (maxAlloc : Int))
    (h : readHeader (NewReader c.c) = some (N, none, r)) :
    c.readBuffer =
      match readBodyLoop N.toNat r.budget [] r with
      | none => .fuelOut
      | some (some e, _, r2) => .done (some e, { c with c := r2.rd })
      | some (none, body, r2) => .done (none, { c := r2.rd, readbuf := body }) := by
  unfold wrappedConn.readBuffer
  simp only
  rw [h]
  simp only
  rw [makeBytes_fits N hN hmax]

theorem readBuffer_panics (c : wrappedConn) (N : Int) (r : Reader)
    (hN : N < 0 ∨ (maxAlloc : Int) < N)
    (h : readHeader (NewReader c.c) = some (N, none, r)) :
    c.readBuffer = .panic Panic.makeSliceLen := by
  unfold wrappedConn.readBuffer
  simp only
  rw [h]
  simp only
  rw [makeBytes_out_of_range N hN]

theorem readBuffer_complete (c : wrappedConn) (N : Int) (hlo : 0 ≤ N)
    (hhi : N ≤ (maxAlloc : Int))
    (body rest : List Byte) (hbody : (body.length : Int) = N)
    (hch : NonemptyChunks c.c.incoming)
    (hcontent : c.c.incoming.flatten = headerLine N ++ ascii "\r\n\r\n" ++ (body ++ rest)) :
    ∃ conn, c.readBuffer = .done (none, { c := conn, readbuf := body }) := by
  obtain ⟨r1, hr1, herr1, hch1, hpend1, _⟩ :=
    readHeader_headerLine N (by omega) (lt_of_le_of_lt hhi maxAlloc_lt) (NewReader c.c)
      (body ++ rest) rfl hch (by rw [NewReader_pending, hcontent])
  have hlen : body.length = N.toNat := by omega
  obtain ⟨r2, hr2⟩ := readBodyLoop_complete N.toNat r1.budget [] r1 herr1 hch1 (by simp)
    (by rw [hpend1, List.length_append]; simp; omega)
    (by rw [pending_length]; unfold Reader.budget; omega)
  refine ⟨r2.rd, ?_⟩
  rw [readBuffer_of_header c N r1 hlo hhi hr1, hr2, hpend1, List.nil_append, ← hlen,
    List.take_left']
  rfl

theorem Buffer_Read_nonempty (buf : List Nat) (n : Nat) (h : buf ≠ []) :
    bytes.Buffer.Read buf n = (buf.take n, none, buf.drop n) := by
  unfold bytes.Buffer.Read
  rw [if_neg (fun h0 => h (List.length_eq_zero.mp h0))]

theorem Read_of_done (c c1 : wrappedConn) (k : Nat) (e : Option Err) (h : c.readbuf = [])
    (hrb : c.readBuffer = .done (e, c1)) :
    c.Read k = .done ((bytes.Buffer.Read c1.readbuf k).1, (bytes.Buffer.Read c1.readbuf k).2.1,
      { c1 with readbuf := (bytes.Buffer.Read c1.readbuf k).2.2 }) := by
  unfold wrappedConn.Read
  rw [if_pos (by rw [h]; rfl), hrb]

/-- C2: round trip of the framing layer. When the bytes a `Write` of a non-empty
payload `b` (of a length a Go `int` holds) passed to its connection are the
content of an incoming stream, however the stream is cut into non-empty reads,
then `readHeader` on a fresh reader returns `len(b)+16` without error and,
`len(b)+16` being a length `make` accepts (at most `maxAlloc`, as for every
payload the runtime can hold), `readBuffer` returns without error leaving
`{"jsonrpc":"2.0",` followed by `b[1:]` in the pending-read buffer, and `Read`
with an empty pending buffer delivers these bytes: the first `k` of them into
a slice of length `k`, the others staying pending. -/
theorem write_then_read_roundtrip (w w1 : wrappedConn) (b : List Byte) (n : Nat)
    (e : Option Err) (hb : b ≠ []) (hint : (b.length : Int) + 16 < 2 ^ 63)
    (hw : w.Write b = .done (n, e, w1))
    (chunks : List (List Byte)) (hch : NonemptyChunks chunks)
    (hstream : w1.c.writes = w.c.writes ++ [chunks.flatten])
    (final : Err) (writes : List (List Byte)) (wroom : Option (Nat × Err))
    (readbuf : List Byte) :
    (∃ r, readHeader (NewReader { incoming := chunks, final := final, writes := writes,
                                   wroom := wroom }) = some ((b.length : Int) + 16, none, r)) ∧
    ((b.length : Int) + 16 ≤ (maxAlloc : Int) →
      (∃ conn, wrappedConn.readBuffer
          { c := { incoming := chunks, final := final, writes := writes, wroom := wroom },
            readbuf := readbuf } =
          .done (none, { c := conn,
                         readbuf := ascii "\x7b\"jsonrpc\":\"2.0\"," ++ b.drop 1 })) ∧
      (∀ k, 0 < k → ∃ conn, wrappedConn.Read
          { c := { incoming := chunks, final := final, writes := writes, wroom := wroom },
            readbuf := [] } k =
          .done ((ascii "\x7b\"jsonrpc\":\"2.0\"," ++ b.drop 1).take k, none,
            { c := conn,
              readbuf := (ascii "\x7b\"jsonrpc\":\"2.0\"," ++ b.drop 1).drop k }))) := by
  have hframe : chunks.flatten = frame b := by
    rw [Write_eq w b hb] at hw
    injection hw with hw
    have h3 : w1.c = (w.c.Write (frame b)).2.2 := by
      rw [← congrArg (fun t => t.2.2.c) hw]
    rw [h3, Conn.Write_writes] at hstream
    have := List.append_cancel_left hstream
    injection this with h4 _
    exact h4.symm
  have hsl : ((spliced b).length : Int) = (b.length : Int) + 16 := by
    rw [spliced_length b hb]
    push_cast
    rfl
  have hcontent : chunks.flatten =
      headerLine ((b.length : Int) + 16) ++ ascii "\r\n\r\n" ++ (spliced b ++ []) := by
    rw [hframe, List.append_nil, ← hsl]
    rfl
  have hlo : (0 : Int) ≤ (b.length : Int) + 16 := by omega
  have hsp : ascii "\x7b\"jsonrpc\":\"2.0\"," ++ b.drop 1 = spliced b := rfl
  have hne : spliced b ≠ [] := by
    intro h
    have := spliced_length b hb
    rw [h] at this
    simp at this
  rw [hsp]
  refine ⟨?_, ?_⟩
  · obtain ⟨r1, hr1, _⟩ := readHeader_headerLine _ (by omega) hint
      (NewReader { incoming := chunks, final := final, writes := writes, wroom := wroom })
      (spliced b ++ []) rfl hch (by rw [NewReader_pending]; exact hcontent)
    exact ⟨r1, hr1⟩
  · intro halloc
    have hrb : ∀ rb, ∃ conn, wrappedConn.readBuffer
        { c := { incoming := chunks, final := final, writes := writes, wroom := wroom },
          readbuf := rb } = .done (none, { c := conn, readbuf := spliced b }) :=
      fun rb => readBuffer_complete _ _ hlo halloc (spliced b) [] hsl hch hcontent
    refine ⟨hrb readbuf, ?_⟩
    intro k _
    obtain ⟨conn, hc⟩ := hrb []
    refine ⟨conn, ?_⟩
    rw [Read_of_done _ _ k none rfl hc]
    simp only
    rw [Buffer_Read_nonempty _ _ hne]

theorem write_then_read_roundtrip_witness :
    (∃ r, readHeader (NewReader { incoming := [(frame (ascii "\x7b\"id\":1\x7d")).take 7,
                                                (frame (ascii "\x7b\"id\":1\x7d")).drop 7],
                                   final := Err.EOF, writes := [], wroom := none }) =
        some (((ascii "\x7b\"id\":1\x7d").length : Int) + 16, none, r)) ∧
    (∃ conn, wrappedConn.readBuffer
        { c := { incoming := [(frame (ascii "\x7b\"id\":1\x7d")).take 7,
                              (frame (ascii "\x7b\"id\":1\x7d")).drop 7],
                 final := Err.EOF, writes := [], wroom := none },
          readbuf := [] } =
        .done (none, { c := conn,
                       readbuf := ascii "\x7b\"jsonrpc\":\"2.0\"," ++
                         (ascii "\x7b\"id\":1\x7d").drop 1 })) ∧
    (∀ k, 0 < k → ∃ conn, wrappedConn.Read
        { c := { incoming := [(frame (ascii "\x7b\"id\":1\x7d")).take 7,
                              (frame (ascii "\x7b\"id\":1\x7d")).drop 7],
                 final := Err.EOF, writes := [], wroom := none },
          readbuf := [] } k =
        .done ((ascii "\x7b\"jsonrpc\":\"2.0\"," ++ (ascii "\x7b\"id\":1\x7d").drop 1).take k,
          none,
          { c := conn,
            readbuf := (ascii "\x7b\"jsonrpc\":\"2.0\"," ++
              (ascii "\x7b\"id\":1\x7d").drop 1).drop k })) :=
  (fun h => ⟨h.1, (h.2 (by decide)).1, (h.2 (by decide)).2⟩)
    (write_then_read_roundtrip
      { c := { incoming := [], final := Err.EOF, writes := [], wroom := none }, readbuf := [] }
      { c := { incoming := [], final := Err.EOF, writes := [frame (ascii "\x7b\"id\":1\x7d")],
               wroom := none }, readbuf := [] }
      (ascii "\x7b\"id\":1\x7d") (frame (ascii "\x7b\"id\":1\x7d")).length none
      (by decide) (by decide) (by decide)
      [(frame (ascii "\x7b\"id\":1\x7d")).take 7, (frame (ascii "\x7b\"id\":1\x7d")).drop 7]
      (by unfold NonemptyChunks; decide) (by decide) Err.EOF [] none [])

/-- C10, as amended: for every length `N` that a Go `int` holds, a stream that
starts with the header line `Content-Length: N` and a blank line makes
`readHeader` return `N` with a nil error, however the stream is cut into
non-empty reads; for `0 ≤ N ≤ maxAlloc` the allocation `make([]byte, N)` gives
a slice of `N` bytes, and for `N < 0`, as for `N > maxAlloc`, the allocation
panics, so that `readBuffer` panics and returns no error. -/
theorem readHeader_returns_declared_int (N : Int) (hlo : -(2 ^ 63) ≤ N) (hhi : N < 2 ^ 63)
    (chunks : List (List Byte)) (rest : List Byte) (final : Err)
    (writes : List (List Byte)) (wroom : Option (Nat × Err)) (readbuf : List Byte)
    (hch : NonemptyChunks chunks)
    (hcontent : chunks.flatten = headerLine N ++ ascii "\r\n\r\n" ++ rest) :
    (∃ r, readHeader (NewReader { incoming := chunks, final := final, writes := writes,
                                   wroom := wroom }) = some (N, none, r)) ∧
    (0 ≤ N → N ≤ (maxAlloc : Int) →
      ∃ body, makeBytes N = .done body ∧ (body.length : Int) = N) ∧
    (N < 0 ∨ (maxAlloc : Int) < N → makeBytes N = .panic Panic.makeSliceLen ∧
      wrappedConn.readBuffer
        { c := { incoming := chunks, final := final, writes := writes, wroom := wroom },
          readbuf := readbuf } = .panic Panic.makeSliceLen) := by
  obtain ⟨r1, hr1, _⟩ := readHeader_headerLine N hlo hhi
    (NewReader { incoming := chunks, final := final, writes := writes, wroom := wroom })
    rest rfl hch (by rw [NewReader_pending]; exact hcontent)
  refine ⟨⟨r1, hr1⟩, ?_, ?_⟩
  · intro h0 hmax
    refine ⟨_, makeBytes_fits N h0 hmax, ?_⟩
    rw [List.length_replicate]
    omega
  · intro hout
    exact ⟨makeBytes_out_of_range N hout, readBuffer_panics _ N r1 hout hr1⟩

theorem readHeader_returns_declared_int_witness :
    (∃ r, readHeader (NewReader { incoming := [ascii "Content-Length: -1\r", ascii "\n\r\nxyz"],
                                   final := Err.EOF, writes := [], wroom := none }) =
        some (-1, none, r)) ∧
    ((0 : Int) ≤ -1 → (-1 : Int) ≤ (maxAlloc : Int) →
      ∃ body, makeBytes (-1) = .done body ∧ (body.length : Int) = -1) ∧
    ((-1 : Int) < 0 ∨ (maxAlloc : Int) < -1 → makeBytes (-1) = .panic Panic.makeSliceLen ∧
      wrappedConn.readBuffer
        { c := { incoming := [ascii "Content-Length: -1\r", ascii "\n\r\nxyz"],
                 final := Err.EOF, writes := [], wroom := none },
          readbuf := [] } = .panic Panic.makeSliceLen) :=
  readHeader_returns_declared_int (-1) (by decide) (by decide)
    [ascii "Content-Length: -1\r", ascii "\n\r\nxyz"] (ascii "xyz") Err.EOF [] none []
    (by unfold NonemptyChunks; decide) (by decide)

/-- C10, as stated, fails at two non-negative lengths. At `N = 2^63` the header
line `Content-Length: 9223372036854775808` makes the scan fail on the range of
`int`, and `readHeader` returns 0 with a nil error, not `N`. At `N = 2^48 + 1`
the header line `Content-Length: 281474976710657` makes `readHeader` return
`N`, and `make([]byte, N)` panics, so that `readBuffer` panics. -/
theorem readHeader_overflow_counterexample :
    ((0 : Int) ≤ 9223372036854775808 ∧
      ascii "Content-Length: 9223372036854775808\r\n\r\n" =
        headerLine 9223372036854775808 ++ ascii "\r\n\r\n" ∧
      readHeader (NewReader { incoming := [ascii "Content-Length: 9223372036854775808\r\n\r\n"],
                              final := Err.EOF, writes := [], wroom := none }) =
        some (0, none, { rd := { incoming := [], final := Err.EOF, writes := [], wroom := none },
                         buf := [], err := none }) ∧
      ¬ ∃ r, readHeader
          (NewReader { incoming := [ascii "Content-Length: 9223372036854775808\r\n\r\n"],
                       final := Err.EOF, writes := [], wroom := none }) =
        some (9223372036854775808, none, r)) ∧
    ((0 : Int) ≤ 281474976710657 ∧
      ascii "Content-Length: 281474976710657\r\n\r\n" =
        headerLine 281474976710657 ++ ascii "\r\n\r\n" ∧
      readHeader (NewReader { incoming := [ascii "Content-Length: 281474976710657\r\n\r\n"],
                              final := Err.EOF, writes := [], wroom := none }) =
        some (281474976710657, none,
          { rd := { incoming := [], final := Err.EOF, writes := [], wroom := none },
            buf := [], err := none }) ∧
      makeBytes 281474976710657 = .panic Panic.makeSliceLen ∧
      wrappedConn.readBuffer
          { c := { incoming := [ascii "Content-Length: 281474976710657\r\n\r\n"],
                   final := Err.EOF, writes := [], wroom := none },
            readbuf := [] } = .panic Panic.makeSliceLen) := by
  have h : readHeader
      (NewReader { incoming := [ascii "Content-Length: 9223372036854775808\r\n\r\n"],
                   final := Err.EOF, writes := [], wroom := none }) =
      some (0, none, { rd := { incoming := [], final := Err.EOF, writes := [], wroom := none },
                       buf := [], err := none }) := by decide
  refine ⟨⟨by decide, by decide, h, ?_⟩, by decide, by decide, by decide, by decide, by decide⟩
  rintro ⟨r, hr⟩
  rw [h] at hr
  injection hr with hr
  injection hr with hr _
  exact absurd hr (by decide)

/-- C5 at a failing input: two framed messages arrive in one underlying read.
The first `Read` delivers the first body; after it neither the connection nor
the pending buffer holds a byte of the second message, and the second `Read`
delivers nothing and returns `io.EOF`. -/
theorem second_message_is_dropped :
    wrappedConn.Read
        { c := { incoming := [ascii "Content-Length: 8\r\n\r\n\x7b\"id\":1\x7dContent-Length: 8\r\n\r\n\x7b\"id\":2\x7d"],
                 final := Err.EOF, writes := [], wroom := none },
          readbuf := [] } 4096 =
      .done (ascii "\x7b\"id\":1\x7d", none,
        { c := { incoming := [], final := Err.EOF, writes := [], wroom := none },
          readbuf := [] }) ∧
    wrappedConn.Read
        { c := { incoming := [], final := Err.EOF, writes := [], wroom := none },
          readbuf := [] } 4096 =
      .done ([], some Err.EOF,
        { c := { incoming := [], final := Err.EOF, writes := [], wroom := none },
          readbuf := [] }) := by
  constructor <;> decide

/-! ## The filter service -/

theorem Compare_le_zero (a b : Int) : cmp.Compare a b ≤ 0 ↔ a ≤ b := by
  unfold cmp.Compare
  by_cases h1 : a < b
  · rw [if_pos h1]; constructor <;> intro <;> omega
  · rw [if_neg h1]
    by_cases h2 : a > b
    · rw [if_pos h2]; constructor <;> intro <;> omega
    · rw [if_neg h2]; constructor <;> intro <;> omega

theorem Compare_lt_zero (a b : Int) : cmp.Compare a b < 0 ↔ a < b := by
  unfold cmp.Compare
  by_cases h1 : a < b
  · rw [if_pos h1]; constructor <;> intro <;> omega
  · rw [if_neg h1]
    by_cases h2 : a > b
    · rw [if_pos h2]; constructor <;> intro <;> omega
    · rw [if_neg h2]; constructor <;> intro <;> omega

theorem insertFromRight_perm (cmp : FilterResult → FilterResult → Int) (x : FilterResult)
    (l : List FilterResult) : (insertFromRight cmp x l).Perm (x :: l) := by
  induction l with
  | nil => exact List.Perm.refl _
  | cons y ys ih =>
    unfold insertFromRight
    by_cases h : cmp x y < 0
    · rw [if_pos h]
      exact (List.Perm.cons y ih).trans (List.Perm.swap x y ys)
    · rw [if_neg h]

theorem insertFromRight_descending (x : FilterResult) (l : List FilterResult)
    (h : l.Pairwise (fun a b => b.Score ≤ a.Score)) :
    (insertFromRight byScore x l).Pairwise (fun a b => b.Score ≤ a.Score) := by
  induction l with
  | nil => simp [insertFromRight]
  | cons y ys ih =>
    obtain ⟨hy, hys⟩ := List.pairwise_cons.mp h
    unfold insertFromRight
    by_cases hlt : byScore x y < 0
    · rw [if_pos hlt]
      have hxy : x.Score < y.Score := (Compare_lt_zero _ _).mp hlt
      refine List.pairwise_cons.mpr ⟨?_, ih hys⟩
      intro z hz
      rcases List.mem_cons.mp ((insertFromRight_perm byScore x ys).subset hz) with h1 | h1
      · rw [h1]; omega
      · exact hy z h1
    · rw [if_neg hlt]
      have hxy : y.Score ≤ x.Score := by
        have := (Compare_lt_zero x.Score y.Score).not.mp hlt
        omega
      refine List.pairwise_cons.mpr ⟨?_, h⟩
      intro z hz
      rcases List.mem_cons.mp hz with h1 | h1
      · rw [h1]; exact hxy
      · have := hy z h1
        omega

theorem insertionSort_fold (l acc : List FilterResult)
    (h : acc.Pairwise (fun a b => b.Score ≤ a.Score)) :
    (l.foldl (fun acc x => insertFromRight byScore x acc) acc).Perm (l ++ acc) ∧
      (l.foldl (fun acc x => insertFromRight byScore x acc) acc).Pairwise
        (fun a b => b.Score ≤ a.Score) := by
  induction l generalizing acc with
  | nil => exact ⟨List.Perm.refl _, h⟩
  | cons x xs ih =>
    obtain ⟨h1, h2⟩ := ih (insertFromRight byScore x acc) (insertFromRight_descending x acc h)
    refine ⟨?_, h2⟩
    simp only [List.foldl_cons]
    refine h1.trans ?_
    refine ((insertFromRight_perm byScore x acc).append_left xs).trans ?_
    exact List.perm_middle

theorem insertionSortCmpFunc_sorts : SortsByScore insertionSortCmpFunc := by
  intro l
  obtain ⟨h1, h2⟩ := insertionSort_fold l [] List.Pairwise.nil
  unfold insertionSortCmpFunc
  constructor
  · refine (List.reverse_perm _).trans ?_
    simpa using h1
  · rw [List.pairwise_reverse]
    exact h2.imp (fun {a b} hab => (Compare_le_zero _ _).mpr hab)

theorem innerFilterLoop_eq (m : Matcher) (hpos : PositionsOnMatch m) (cs : Bool)
    (pattern typ : String) (texts : List String) :
    ∀ (result : List FilterResult) (calls : List MatcherCall),
      innerFilterLoop m cs pattern typ texts result calls =
        .done (result ++ texts.filterMap (entryFor m cs pattern typ),
          calls ++ texts.map
            (fun t => { caseSensitive := cs, text := t, pattern := pattern })) := by
  induction texts with
  | nil => intro result calls; simp [innerFilterLoop]
  | cons text rest ih =>
    intro result calls
    unfold innerFilterLoop
    by_cases hs : (m cs text pattern).1.Score > 0
    · have hne := hpos cs text pattern hs
      cases hm : m cs text pattern with
      | mk res pos =>
        rw [hm] at hs hne
        cases pos with
        | none => exact absurd rfl hne
        | some p =>
          have hs2 : (0 : Int) < res.Score := hs
          simp only [callMatcher, hm, hs2, if_true]
          rw [ih]
          simp [List.filterMap_cons, entryFor, hm, hs2]
    · cases hm : m cs text pattern with
      | mk res pos =>
        rw [hm] at hs
        have hs2 : ¬ (0 : Int) < res.Score := hs
        simp only [callMatcher, hm, hs2, if_false]
        rw [ih]
        simp [List.filterMap_cons, entryFor, hm, hs2]

theorem innerFilter_eq (lower : Char → Char) (m : Matcher) (sortFunc : SortFunc)
    (hpos : PositionsOnMatch m) (args : FilterArgs) (texts : List String) (typ : String) :
    innerFilter lower m sortFunc args texts typ =
      .done (sortFunc byScore
          (texts.filterMap (entryFor m (caseSensitiveFor lower args.Pattern) args.Pattern typ)),
        none,
        texts.map (fun t => { caseSensitive := caseSensitiveFor lower args.Pattern, text := t,
                              pattern := args.Pattern })) := by
  unfold innerFilter
  rw [innerFilterLoop_eq m hpos]
  simp

theorem Filter_eq (lower : Char → Char) (m : Matcher) (sortFunc : SortFunc)
    (hpos : PositionsOnMatch m) (g : Globals) (args : FilterArgs) :
    Filter lower m sortFunc g args =
      .done (FilterReply.mk (sortFunc byScore
          (sortFunc byScore (g.list.filterMap
              (entryFor m (caseSensitiveFor lower args.Pattern) args.Pattern "list")) ++
            sortFunc byScore (g.commandList.filterMap
              (entryFor m (caseSensitiveFor lower args.Pattern) args.Pattern "command")))),
        none) := by
  unfold Filter
  rw [innerFilter_eq lower m sortFunc hpos, innerFilter_eq lower m sortFunc hpos]
  simp

theorem entryFor_score (m : Matcher) (cs : Bool) (pattern typ text : String) (r : FilterResult)
    (h : entryFor m cs pattern typ text = some r) : 0 < r.Score := by
  unfold entryFor at h
  by_cases hs : (m cs text pattern).1.Score > 0
  · rw [if_pos hs] at h
    injection h with h
    rw [← h]
    exact hs
  · rw [if_neg hs] at h
    exact absurd h (by simp)

theorem sampleMatcher_positions : PositionsOnMatch sampleMatcher := by
  intro cs text pattern h
  unfold sampleMatcher at h ⊢
  by_cases hl : pattern.data.isPrefixOf
      (if cs then text.data else text.data.map Char.toLower) = true
  · rw [if_pos hl]
    simp
  · rw [if_neg hl] at h
    exact absurd h (by decide)

/-- C3: with any matcher that returns positions with a positive score and any
`slices.SortFunc` that meets its contract, for every pattern and every content
of `list` and `commandList`, `Filter` returns a nil error and `reply.Results`
is a rearrangement of the entries `{Type: "list", Text: t, Score: s, Pos: p}`
for the elements `t` of `list` with matcher score `s > 0` followed by the
entries `{Type: "command", ...}` for the elements of `commandList` with
positive score, one per list position; every returned entry has a positive
score and two empty lists give an empty result. -/
theorem Filter_returns_positive_entries (lower : Char → Char) (m : Matcher)
    (sortFunc : SortFunc) (hpos : PositionsOnMatch m) (hsort : SortsByScore sortFunc)
    (g : Globals) (args : FilterArgs) :
    ∃ results, Filter lower m sortFunc g args = .done (FilterReply.mk results, none) ∧
      results.Perm (expectedEntries lower m g args.Pattern) ∧
      (∀ r ∈ results, 0 < r.Score) ∧
      (g.list = [] → g.commandList = [] → results = []) := by
  refine ⟨_, Filter_eq lower m sortFunc hpos g args, ?_⟩
  have hperm : (sortFunc byScore
      (sortFunc byScore (g.list.filterMap
          (entryFor m (caseSensitiveFor lower args.Pattern) args.Pattern "list")) ++
        sortFunc byScore (g.commandList.filterMap
          (entryFor m (caseSensitiveFor lower args.Pattern) args.Pattern "command")))).Perm
      (expectedEntries lower m g args.Pattern) :=
    (hsort _).1.trans (List.Perm.append (hsort _).1 (hsort _).1)
  refine ⟨hperm, ?_, ?_⟩
  · intro r hr
    have hmem := hperm.subset hr
    unfold expectedEntries at hmem
    rcases List.mem_append.mp hmem with h | h
    · obtain ⟨t, _, ht⟩ := List.mem_filterMap.mp h
      exact entryFor_score _ _ _ _ _ _ ht
    · obtain ⟨t, _, ht⟩ := List.mem_filterMap.mp h
      exact entryFor_score _ _ _ _ _ _ ht
  · intro h1 h2
    have : expectedEntries lower m g args.Pattern = [] := by
      unfold expectedEntries
      rw [h1, h2]
      rfl
    rw [this] at hperm
    exact hperm.eq_nil

theorem Filter_returns_positive_entries_witness :
    ∃ results,
      Filter Char.toLower sampleMatcher insertionSortCmpFunc
          { list := ["apple", "banana"], commandList := ["grape", "a"] }
          { Pattern := "ap" } = .done (FilterReply.mk results, none) ∧
      results.Perm (expectedEntries Char.toLower sampleMatcher
        { list := ["apple", "banana"], commandList := ["grape", "a"] } "ap") ∧
      (∀ r ∈ results, 0 < r.Score) ∧
      (["apple", "banana"] = ([] : List String) → ["grape", "a"] = ([] : List String) →
        results = []) :=
  Filter_returns_positive_entries Char.toLower sampleMatcher insertionSortCmpFunc
    sampleMatcher_positions insertionSortCmpFunc_sorts
    { list := ["apple", "banana"], commandList := ["grape", "a"] } { Pattern := "ap" }

/-- C4: with any matcher that returns positions with a positive score and any
`slices.SortFunc` that meets its contract, for every pattern and every content
of the two lists, `Filter` returns and `reply.Results` is in ascending order of
score: of two adjacent entries the earlier has a score less than or equal to
the score of the later, whatever their origin. -/
theorem Filter_results_ascending (lower : Char → Char) (m : Matcher)
    (sortFunc : SortFunc) (hpos : PositionsOnMatch m) (hsort : SortsByScore sortFunc)
    (g : Globals) (args : FilterArgs) :
    ∃ results, Filter lower m sortFunc g args = .done (FilterReply.mk results, none) ∧
      results.Chain' (fun a b => a.Score ≤ b.Score) := by
  refine ⟨_, Filter_eq lower m sortFunc hpos g args, ?_⟩
  exact List.Pairwise.chain'
    ((hsort _).2.imp (fun {a b} hab => (Compare_le_zero a.Score b.Score).mp hab))

theorem Filter_results_ascending_witness :
    ∃ results,
      Filter Char.toLower sampleMatcher insertionSortCmpFunc
          { list := ["apple", "banana"], commandList := ["grape", "a"] }
          { Pattern := "ap" } = .done (FilterReply.mk results, none) ∧
      results.Chain' (fun a b => a.Score ≤ b.Score) :=
  Filter_results_ascending Char.toLower sampleMatcher insertionSortCmpFunc
    sampleMatcher_positions insertionSortCmpFunc_sorts
    { list := ["apple", "banana"], commandList := ["grape", "a"] } { Pattern := "ap" }

end FzfFilterd
